import Mathlib

/-!
Verification development for the cplease concurrency toolkit
(promise/future with continuations, thread pool, circular-buffer channel).

Each C++ component is shallowly embedded as executable Lean definitions that
follow the corresponding source functions statement by statement:

* `ThreadPool` with `threadPoolRun` / `threadPoolMap` / `threadPoolQuit`
  (src/include/plz/thread_pool.hpp);
* `waitForRounds`, the round abstraction of `thread_pool::wait_for`;
* `handleFutureReady` / `aggInit` / `aggRun`, the aggregate futures state
  (src/include/plz/futures.hpp);
* a defunctionalised interpreter for the shared future state
  (src/include/plz/future.hpp): `setResult`, `setException`, `setReady`,
  continuation registration `thenVoid` / `onExceptionImpl` / `thenFutureReg`;
* the circular-buffer channel: `writeChan`, `readChan`, `runOps`
  (src/include/plz/circbuff/writer.hpp, reader.hpp, channel.hpp).
-/

namespace Cplease

/-! ## Thread pool (src/include/plz/thread_pool.hpp) -/

/-- Pool state relevant to submission: the `m_stop` flag and the FIFO task
queue `m_tasks` (tasks abstracted to numeric ids; workers, mutex and
condition variables do not affect the enqueue guard). -/
structure ThreadPool where
  stop : Bool
  tasks : List Nat
deriving Repr, DecidableEq

/-- Embeds `thread_pool::run` (thread_pool.hpp:92-117).  Under the mutex the
code checks `m_stop`; if stopped it throws "enqueue on stopped thread_pool"
without touching the queue, else it emplaces the task at the back.  The
remaining `run` overloads (the task_base overload at lines 76-90, the
stop-token overload at lines 119-144 and the `WITH_STD_EXPECTED` overloads)
have textually identical guards, so one embedding covers them. -/
def threadPoolRun (p : ThreadPool) (t : Nat) : ThreadPool × Option String :=
  if p.stop then
    (p, some "enqueue on stopped thread_pool")
  else
    ({ p with tasks := p.tasks ++ [t] }, none)

/-- Embeds `thread_pool::map` (thread_pool.hpp:313-361, the non-expected
branch; the expected branch at 256-310 has the same guard).  Under the mutex:
if `!m_stop`, every element of the range is enqueued as a task; otherwise the
function throws "enqueue on stopped thread_pool" having enqueued nothing. -/
def threadPoolMap (p : ThreadPool) (ts : List Nat) : ThreadPool × Option String :=
  if !p.stop then
    ({ p with tasks := p.tasks ++ ts }, none)
  else
    (p, some "enqueue on stopped thread_pool")

/-- Embeds `thread_pool::quit` (thread_pool.hpp:395-415): under the mutex,
return if `m_stop` is already set, else set it (then wake and join workers,
which does not change the submission-relevant state). -/
def threadPoolQuit (p : ThreadPool) : ThreadPool :=
  if p.stop then p else { p with stop := true }

/-- Embeds the loop of `thread_pool::wait_for` (thread_pool.hpp:379-393):

    while(!is_idle()) { m_pool_wait_condition.wait_for(lock, timeout, pred); }

Round `t` stands for the `t`-th evaluation of the outer loop condition;
`idle t` is the value `is_idle()` has there.  One iteration blocks in
`condition_variable::wait_for` until the predicate holds or the full timeout
elapses (the predicate form already absorbs spurious wakeups), i.e. it
consumes up to one whole timeout period, after which the outer condition is
evaluated again.  `waitForRounds idle fuel t = some u` means the call returns
after round `u`; `none` means it did not return within `fuel` rounds. -/
def waitForRounds (idle : Nat → Bool) : Nat → Nat → Option Nat
  | 0, _ => none
  | fuel + 1, t => if idle t then some t else waitForRounds idle fuel (t + 1)

/-! ## Aggregate futures (src/include/plz/futures.hpp) -/

/-- The per-element slot `result_variant` of `futures<T,Key>`
(futures.hpp:50): `std::variant<std::monostate, result_type,
std::exception_ptr>`, with values and exceptions abstracted to `Nat`. -/
inductive RVar where
  | pending
  | val (v : Nat)
  | err (e : Nat)
deriving Repr, DecidableEq

/-- Tests `std::holds_alternative<std::exception_ptr>(element.result)`. -/
def RVar.isErr : RVar → Bool
  | .err _ => true
  | _ => false

/-- Reads `std::get<result_type>(element.result)` (defined arbitrarily off the
value branch; the source only evaluates it on settled values). -/
def RVar.getVal : RVar → Nat
  | .val v => v
  | _ => 0

/-- Reads `std::get<std::exception_ptr>(element.result)`. -/
def RVar.getErr : RVar → Nat
  | .err e => e
  | _ => 0

/-- One entry of `futures::state::m_futures` (futures.hpp:54-60): the
registration index and the `result_variant` slot (the key and the stored
sub-future handle play no role in settlement). -/
structure AggElem where
  idx : Nat
  res : RVar
deriving Repr, DecidableEq

/-- The settlement-relevant fields of `futures::state` (futures.hpp:63-70):
the element vector and `m_ready_count`. -/
structure AggState where
  futures : List AggElem
  readyCount : Nat
deriving Repr, DecidableEq

/-- The action `handle_future_ready` performs on the aggregate promise:
nothing, `set_result(values)`, or `set_exception(e)`. -/
inductive AggOut where
  | none
  | setResult (vs : List Nat)
  | setExc (e : Nat)
deriving Repr, DecidableEq

/-- Position of the first element satisfying `p` (the `std::ranges::find_if`
of futures.hpp:129-133, as an index instead of an iterator). -/
def findIdxFrom (p : AggElem → Bool) : List AggElem → Option Nat
  | [] => none
  | e :: es => if p e then some 0 else (findIdxFrom p es).map (· + 1)

/-- Writes through the iterator produced by `find_if` (`it->result = result`,
futures.hpp:140): replace the element at the given position. -/
def modifyAt (f : AggElem → AggElem) : List AggElem → Nat → List AggElem
  | [], _ => []
  | e :: es, 0 => f e :: es
  | e :: es, n + 1 => e :: modifyAt f es n

/-- Embeds `futures::state::handle_future_ready` (futures.hpp:125-169).
Under the mutex: find the element whose `index` matches (`find_if`); if none,
return.  Store the result, increment `m_ready_count`; when it reaches the
element count, scan for the first element holding an exception
(`find_if` over `m_futures`, i.e. registration order): fulfil the aggregate
promise with the transformed value vector if there is none, else fail it with
that first exception. -/
def handleFutureReady (s : AggState) (index : Nat) (result : RVar) :
    AggState × AggOut :=
  match findIdxFrom (fun e => e.idx == index) s.futures with
  | Option.none => (s, .none)
  | some p =>
    let fs := modifyAt (fun e => { e with res := result }) s.futures p
    let rc := s.readyCount + 1
    if rc = fs.length then
      match fs.find? (fun e => e.res.isErr) with
      | Option.none => (⟨fs, rc⟩, .setResult (fs.map (fun e => e.res.getVal)))
      | some e => (⟨fs, rc⟩, .setExc e.res.getErr)
    else
      (⟨fs, rc⟩, .none)

/-- Embeds the `futures::state` constructor (futures.hpp:78-98) over `n`
sub-futures: each sub-future gets index `0..n-1` in registration order, its
slot starts as `std::monostate` (pending), and `m_ready_count` starts at 0.
`thread_pool::map` over an empty range and `make_futures` with an empty map
both produce `aggInit 0`. -/
def aggInit (n : Nat) : AggState :=
  ⟨(List.range n).map (fun i => ⟨i, .pending⟩), 0⟩

/-- Delivers a sequence of sub-future settlements: the continuation wired to
sub-future `i` in the constructor calls `handle_future_ready(i, r)` when that
sub-future settles.  Returns the final state and the list of aggregate-promise
actions, one per delivery. -/
def aggRun (s : AggState) : List (Nat × RVar) → AggState × List AggOut
  | [] => (s, [])
  | (i, r) :: rest =>
    let (s1, o) := handleFutureReady s i r
    let (s2, os) := aggRun s1 rest
    (s2, o :: os)

/-- The outcome predicted for registration indices `keys` (in registration
order) with settlement assignment `res`: the first recorded error in
registration order if any, else the values in registration order. -/
def aggExpectedKeys (keys : List Nat) (res : Nat → RVar) : AggOut :=
  match keys.find? (fun j => (res j).isErr) with
  | Option.none => .setResult (keys.map (fun j => (res j).getVal))
  | some j => .setExc (res j).getErr

/-- The outcome the claim predicts for registration indices `0..n-1`. -/
def aggExpected (n : Nat) (res : Nat → RVar) : AggOut :=
  aggExpectedKeys (List.range n) res

/-- Proof helper: the aggregate state in which the sub-futures carry the
registration indices `keys` and exactly those in `done` have settled (with
assignment `res`). `aggInit n` is `stateOfKeys res (List.range n) []`. -/
def stateOfKeys (res : Nat → RVar) (keys done : List Nat) : AggState :=
  ⟨keys.map (fun j => ⟨j, if j ∈ done then res j else .pending⟩), done.length⟩

/-- Proof helper: the combined effect of `find_if` plus the write through its
iterator, as one recursion: update the first element with the given index. -/
def updateFirst (r : RVar) (index : Nat) : List AggElem → Option (List AggElem)
  | [] => none
  | e :: es =>
    if e.idx == index then some ({ e with res := r } :: es)
    else (updateFirst r index es).map (e :: ·)

/-! ## Shared future state and continuations (src/include/plz/future.hpp)

The shared state `detail::state<T>` holds a result slot, an exception slot,
the `m_is_ready` flag and two handler vectors.  Handlers are heterogeneous
closures; the embedding defunctionalises exactly the closures the library
itself installs, and interprets them with an explicitly fueled evaluator
(fuel only bounds the promise-to-promise chaining depth; it is irrelevant
for any terminating scenario given enough fuel).  Values and exceptions are
abstracted to `Nat`. -/

/-- Result of invoking a future-returning continuation `g` inside the
future-returning `then` overload: either `g` returned the future whose shared
state sits at world index `inner`, or `g` threw `e`. -/
inductive GRes where
  | ret (inner : Nat)
  | thr (e : Nat)

/-- Defunctionalised handler closures, exactly those the library installs:

* `user id` — a caller-supplied success continuation (void-returning `then`
  overload, future.hpp:246-259); running it is observable as an event.
* `userErr id ret` — a caller-supplied exception handler wrapped by
  `on_exception` (future.hpp:411-451); it reports `ret e` as its
  handled/unhandled boolean.
* `setRes tgt` — the lambda `[promise](result){ promise.set_result(result); }`
  wired onto an inner future by the future-returning `then` (future.hpp:313-318).
* `setExcH tgt` — the lambda `[promise](exception){
  promise.set_exception(exception); return true; }` (future.hpp:319-323 and
  332-337).
* `thenFuture tgt g` — the success handler installed by the future-returning
  `then` overload (future.hpp:291-330): run `g`, wire its returned future to
  promise `tgt`, forwarding a throw from `g` into `tgt`. -/
inductive Handler where
  | user (id : Nat)
  | userErr (id : Nat) (ret : Nat → Bool)
  | setRes (tgt : Nat)
  | setExcH (tgt : Nat)
  | thenFuture (tgt : Nat) (g : Nat → GRes)

/-- The fields of `detail::state<T>` (future.hpp:89-137): `m_result`,
`m_is_ready`, `m_exception`, `m_success_handlers`, `m_exceptions_handlers`
(mutex, condition variable and pool pointer omitted: every operation below
runs under the state's mutex). -/
structure PState where
  result : Nat := 0
  isReady : Bool := false
  exc : Option Nat := none
  succ : List Handler := []
  errh : List Handler := []

instance : Inhabited PState := ⟨{}⟩

/-- A world of shared states; a promise/future pair is an index into it. -/
abbrev World := List PState

/-- An exception escaping the current call: the
`std::runtime_error("promise is already ready")` of a double fulfilment
(future.hpp:752-754, 777-779, 799-802), a user exception `e` propagating
uncaught, or fuel exhaustion (a model artifact, never hit with enough fuel). -/
inductive Thrown where
  | alreadyReady
  | exc (e : Nat)
  | fuel
deriving Repr, DecidableEq

/-- Observable continuation invocations: a success continuation `id` ran with
value `v`, or an exception handler `id` ran with error `e`. -/
inductive Ev where
  | succRun (id v : Nat)
  | errRun (id e : Nat)
deriving Repr, DecidableEq

/-- Reads the shared state at index `i` (out-of-range never occurs in the
modelled scenarios). -/
def wget (w : World) (i : Nat) : PState :=
  w.getD i default

/-- Updates the shared state at index `i` in place. -/
def wmod : World → Nat → (PState → PState) → World
  | [], _, _ => []
  | s :: ss, 0, f => f s :: ss
  | s :: ss, n + 1, f => s :: wmod ss n f

mutual

/-- Embeds `promise::set_result` (future.hpp:746-769): under the mutex, throw
`"promise is already ready"` if `m_is_ready` (leaving the state untouched),
else store the value, set `m_is_ready`, and run `state::on_ready`
(future.hpp:113-137): with no exception stored, invoke every success handler
in registration order with the stored result.  Returns the world, the events
emitted, and the exception escaping the call, if any. -/
def setResult (fuel : Nat) (w : World) (i v : Nat) :
    World × List Ev × Option Thrown :=
  let s := wget w i
  if s.isReady then (w, [], some .alreadyReady)
  else
    match fuel with
    | 0 => (w, [], some .fuel)
    | fuel + 1 =>
      let w1 := wmod w i (fun s => { s with result := v, isReady := true })
      let s1 := wget w1 i
      match s1.exc with
      | some e =>
        let (w2, evs, _, th) := runErrList fuel w1 s1.errh e
        (w2, evs, th)
      | none => runSuccList fuel w1 s1.succ s1.result
termination_by (fuel, 0)

/-- Embeds `promise<void>::set_ready` (future.hpp:771-785): the same guard as
`set_result`, then `on_ready` with no value stored (success handlers of a
void future take no argument; the event records the state's `result` field,
which stays at its default). -/
def setReady (fuel : Nat) (w : World) (i : Nat) :
    World × List Ev × Option Thrown :=
  let s := wget w i
  if s.isReady then (w, [], some .alreadyReady)
  else
    match fuel with
    | 0 => (w, [], some .fuel)
    | fuel + 1 =>
      let w1 := wmod w i (fun s => { s with isReady := true })
      let s1 := wget w1 i
      match s1.exc with
      | some e =>
        let (w2, evs, _, th) := runErrList fuel w1 s1.errh e
        (w2, evs, th)
      | none => runSuccList fuel w1 s1.succ s1.result

/-- Embeds `promise::set_exception` (future.hpp:794-808): under the mutex,
throw `"promise is already ready"` if `m_is_ready` (leaving the state
untouched), else store the exception, set `m_is_ready`, and run
`state::on_ready`: with an exception stored, invoke the exception handlers in
registration order, stopping at the first returning true; the handled flag is
discarded. -/
def setException (fuel : Nat) (w : World) (i e : Nat) :
    World × List Ev × Option Thrown :=
  let s := wget w i
  if s.isReady then (w, [], some .alreadyReady)
  else
    match fuel with
    | 0 => (w, [], some .fuel)
    | fuel + 1 =>
      let w1 := wmod w i (fun s => { s with exc := some e, isReady := true })
      let s1 := wget w1 i
      match s1.exc with
      | some e1 =>
        let (w2, evs, _, th) := runErrList fuel w1 s1.errh e1
        (w2, evs, th)
      | none => runSuccList fuel w1 s1.succ s1.result
termination_by (fuel, 0)

/-- Runs the success-handler loop of `state::on_ready` (future.hpp:129-133):
each handler in order; an exception escaping a handler aborts the loop and
propagates. -/
def runSuccList (fuel : Nat) (w : World) (hs : List Handler) (v : Nat) :
    World × List Ev × Option Thrown :=
  match hs with
  | [] => (w, [], none)
  | h :: rest =>
    let (w1, evs1, th1) := runSucc fuel w h v
    match th1 with
    | some t => (w1, evs1, some t)
    | none =>
      let (w2, evs2, th2) := runSuccList fuel w1 rest v
      (w2, evs1 ++ evs2, th2)
termination_by (fuel, 1 + sizeOf hs)

/-- Runs one success handler with value `v`. -/
def runSucc (fuel : Nat) (w : World) (h : Handler) (v : Nat) :
    World × List Ev × Option Thrown :=
  match h with
  | .user id => (w, [.succRun id v], none)
  | .setRes tgt => setResult fuel w tgt v
  | .setExcH _ => (w, [], none)
  | .userErr _ _ => (w, [], none)
  | .thenFuture tgt g =>
    match g v with
    | .thr e =>
      setException fuel w tgt e
    | .ret inner =>
      let w1 := wmod w inner (fun s => { s with succ := s.succ ++ [.setRes tgt] })
      let w2 := wmod w1 inner (fun s => { s with errh := s.errh ++ [.setExcH tgt] })
      (w2, [], none)
termination_by (fuel, 1 + sizeOf h)

/-- Runs the exception-handler loop of `state::on_ready` (future.hpp:118-125):
each handler in order, breaking at the first that returns true; an exception
escaping a handler aborts the loop and propagates.  The boolean component
reports whether some handler consumed the error. -/
def runErrList (fuel : Nat) (w : World) (hs : List Handler) (e : Nat) :
    World × List Ev × Bool × Option Thrown :=
  match hs with
  | [] => (w, [], false, none)
  | h :: rest =>
    let (w1, evs1, handled, th1) := runErr fuel w h e
    match th1 with
    | some t => (w1, evs1, handled, some t)
    | none =>
      if handled then (w1, evs1, true, none)
      else
        let (w2, evs2, h2, th2) := runErrList fuel w1 rest e
        (w2, evs1 ++ evs2, h2, th2)
termination_by (fuel, 1 + sizeOf hs)

/-- Runs one exception handler with error `e`. -/
def runErr (fuel : Nat) (w : World) (h : Handler) (e : Nat) :
    World × List Ev × Bool × Option Thrown :=
  match h with
  | .userErr id ret => (w, [.errRun id e], ret e, none)
  | .setExcH tgt =>
    let (w1, evs, th) := setException fuel w tgt e
    (w1, evs, true, th)
  | .user _ => (w, [], false, none)
  | .setRes _ => (w, [], false, none)
  | .thenFuture _ _ => (w, [], false, none)
termination_by (fuel, 1 + sizeOf h)

end

/-- Embeds the void-returning `future::then` overload (future.hpp:246-259):
under the mutex, push the wrapped continuation onto `m_success_handlers` and
return the same future.  The body neither reads `m_is_ready` nor invokes
anything, so the registering call emits no events regardless of the state's
readiness. -/
def thenVoid (w : World) (i : Nat) (id : Nat) : World × List Ev :=
  (wmod w i (fun s => { s with succ := s.succ ++ [.user id] }), [])

/-- Embeds `future::on_exception_impl` (future.hpp:453-459), the single entry
point of every `on_exception` overload: under the mutex, push the wrapped
handler onto `m_exceptions_handlers`.  Like `then`, it neither reads
`m_is_ready` nor invokes anything. -/
def onExceptionImpl (w : World) (i : Nat) (h : Handler) : World × List Ev :=
  (wmod w i (fun s => { s with errh := s.errh ++ [h] }), [])

/-- Embeds the future-returning `future::then` overload (future.hpp:277-340):
make a new promise (a fresh state appended to the world, index `w.length`),
then under the source future's mutex push the `thenFuture` success handler
(future.hpp:291-330) and the exception forwarder (future.hpp:332-337), and
return the new future's index. -/
def thenFutureReg (w : World) (i : Nat) (g : Nat → GRes) : World × Nat :=
  let n := w.length
  let w1 := w ++ [(default : PState)]
  let w2 := wmod w1 i (fun s => { s with succ := s.succ ++ [.thenFuture n g] })
  let w3 := wmod w2 i (fun s => { s with errh := s.errh ++ [.setExcH n] })
  (w3, n)

/-- Embeds `future::take` (future.hpp:230-244) at the point where the wait
predicate already holds: clear `m_is_ready` and move the result out. -/
def takeF (w : World) (i : Nat) : World × Nat :=
  (wmod w i (fun s => { s with isReady := false }), (wget w i).result)

/-- The list of exception-handler ids `state::on_ready` fires for error `e`
when the registered handlers are `ps.map (fun p => .userErr p.1 p.2)`: every
handler in registration order up to and including the first whose boolean is
true. -/
def firedList (e : Nat) : List (Nat × (Nat → Bool)) → List Nat
  | [] => []
  | (id, ret) :: rest => id :: (if ret e then [] else firedList e rest)

/-! ## Circular-buffer channel (src/include/plz/circbuff) -/

/-- A channel over a ring of capacity `2 ^ k`: the backing slots (a total
function; only arguments below the capacity are meaningful), the writer's
`m_index` (writer.hpp:43) and the reader's `m_index` (reader.hpp:40).  The
`circular_buffer_ptr` concept (concepts.hpp:44-46) admits only power-of-two
capacities, which the parameter `k` builds in. -/
structure Chan where
  k : Nat
  data : Nat → Nat
  wIdx : Nat
  rIdx : Nat

/-- The ring capacity `CAPACITY = 2 ^ k`. -/
def Chan.cap (c : Chan) : Nat := 2 ^ c.k

/-- The semantics of `std::memcpy(base + dst, src, len)` on the slot function:
positions `dst ≤ p < dst + src.length` take the corresponding source element,
all others keep their value. -/
def copySeg (d : Nat → Nat) (dst : Nat) (src : List Nat) : Nat → Nat :=
  fun p => if dst ≤ p ∧ p < dst + src.length then src.getD (p - dst) 0 else d p

/-- Embeds `writer::write` (writer.hpp:85-96), i.e. `write_using`
(writer.hpp:98-153, `MIN_CONTIGUOUS_SIZE = 0` so the scratch-buffer branch is
compiled out) applied to the memcpy callback, which always produces the full
segment it is offered:

* `index = m_index & g_modmask`; the first segment covers
  `min(count, CAPACITY - index)` slots starting at `index` and the callback
  copies `values[0..)` there;
* `m_index += size_written`; when the first segment was cut short by the end
  of the ring and elements remain, a second callback call copies the
  remainder starting at the new `m_index & g_modmask`, and `m_index` advances
  by the rest. -/
def writeChan (c : Chan) (vs : List Nat) : Chan :=
  let index := c.wIdx &&& (c.cap - 1)
  let sizeToEnd := min vs.length (c.cap - index)
  let d1 := copySeg c.data index (vs.take sizeToEnd)
  let w1 := c.wIdx + sizeToEnd
  if sizeToEnd < vs.length then
    let index2 := w1 &&& (c.cap - 1)
    let d2 := copySeg d1 index2 (vs.drop sizeToEnd)
    { c with data := d2, wIdx := w1 + (vs.length - sizeToEnd) }
  else
    { c with data := d1, wIdx := w1 }

/-- Embeds `sink::read(values, count)` (channel.hpp:275-280) composed with
`reader::read` / `read_using` (reader.hpp:171-238, `MIN_CONTIGUOUS_SIZE = 0`)
applied to the memcpy-out callback:

* the sink clamps the request to `get_available_data_size() =
  min(write_index - read_index, CAPACITY)` (channel.hpp:254-258);
* `read_using` delivers `min(count, CAPACITY - (m_index & g_modmask))` slots
  starting at `m_index & g_modmask`, advances `m_index`, and when cut short
  by the end of the ring delivers the remainder from the new
  `m_index & g_modmask`.

Returns the updated channel and the elements read, in order. -/
def readChan (c : Chan) (count : Nat) : Chan × List Nat :=
  let avail := min (c.wIdx - c.rIdx) c.cap
  let cnt := min avail count
  let index := c.rIdx &&& (c.cap - 1)
  let sizeToEnd := min cnt (c.cap - index)
  let out1 := (List.range sizeToEnd).map (fun j => c.data (index + j))
  let r1 := c.rIdx + sizeToEnd
  if sizeToEnd < cnt then
    let index2 := r1 &&& (c.cap - 1)
    let out2 := (List.range (cnt - sizeToEnd)).map (fun j => c.data (index2 + j))
    ({ c with rIdx := r1 + (cnt - sizeToEnd) }, out1 ++ out2)
  else
    ({ c with rIdx := r1 }, out1)

/-- An alternation step: a bulk write by the source or a bulk read by the
sink. -/
inductive ChOp where
  | write (vs : List Nat)
  | read (n : Nat)

/-- Runs an alternation of source writes and sink reads, concatenating the
elements the reads return. -/
def runOps (c : Chan) : List ChOp → Chan × List Nat
  | [] => (c, [])
  | .write vs :: rest => runOps (writeChan c vs) rest
  | .read n :: rest =>
    let (c1, out) := readChan c n
    let (c2, outs) := runOps c1 rest
    (c2, out ++ outs)

/-- The concatenation of all values written by an alternation. -/
def writtenOf : List ChOp → List Nat
  | [] => []
  | .write vs :: rest => vs ++ writtenOf rest
  | .read _ :: rest => writtenOf rest

/-- The claim's side condition, tracked through an alternation that starts
with `write_index = w` and `read_index = r`: each write must keep
`write_index` at most `CAPACITY` ahead of `read_index` (a read advances
`read_index` by the clamped count, never past `write_index`). -/
def validTrace (cap : Nat) : Nat → Nat → List ChOp → Bool
  | _, _, [] => true
  | w, r, .write vs :: rest =>
    decide (w + vs.length ≤ r + cap) && validTrace cap (w + vs.length) r rest
  | w, r, .read n :: rest => validTrace cap w (r + min (w - r) n) rest

/-- Proof invariant tying a channel to the ghost history `hist` of all values
ever written: `write_index` counts the writes, `read_index` trails it by at
most `CAPACITY`, and every unread logical index `i` still has its value in
physical slot `i % CAPACITY`. -/
def ChanInv (c : Chan) (hist : List Nat) : Prop :=
  c.wIdx = hist.length ∧ c.rIdx ≤ c.wIdx ∧ c.wIdx ≤ c.rIdx + c.cap ∧
    ∀ i, c.rIdx ≤ i → i < c.wIdx → c.data (i % c.cap) = hist.getD i 0

/-! ## Theorems -/

theorem threadPoolQuit_stop (p : ThreadPool) : (threadPoolQuit p).stop = true := by
  unfold threadPoolQuit
  split
  · assumption
  · rfl

/-- C8: on a pool on which `quit()` has been called, every subsequent
submission — `run` (all overloads share the guard) and `map` — throws
"enqueue on stopped thread_pool" and leaves the task queue untouched. -/
theorem c8_submission_after_quit_fails (p : ThreadPool) (t : Nat) (ts : List Nat) :
    threadPoolRun (threadPoolQuit p) t
        = (threadPoolQuit p, some "enqueue on stopped thread_pool")
      ∧ threadPoolMap (threadPoolQuit p) ts
        = (threadPoolQuit p, some "enqueue on stopped thread_pool") := by
  constructor <;>
    simp [threadPoolRun, threadPoolMap, threadPoolQuit_stop]

/-- C6: the loop of `thread_pool::wait_for` re-enters
`condition_variable::wait_for` whenever the pool is still not idle after a
full timeout period.  Consequently, on a pool that never becomes idle the
call never returns — for every number of elapsed timeout rounds, from any
starting round — refuting the claim that it returns after at most one
timeout. -/
theorem c6_wait_for_never_returns_when_busy (fuel t : Nat) :
    waitForRounds (fun _ => false) fuel t = none := by
  induction fuel generalizing t with
  | zero => rfl
  | succ n ih => simpa [waitForRounds] using ih (t + 1)

/-- C10: an aggregate constructed over zero sub-futures is inert: whatever
sequence of `handle_future_ready` calls is delivered, the state stays the
empty initial state and no call ever touches the aggregate promise (every
emitted action is `none`), so the aggregate future's ready flag can never
become true and `wait()`/`get()` on it block forever. -/
theorem c10_empty_aggregate_never_settles (calls : List (Nat × RVar)) :
    aggRun (aggInit 0) calls = (aggInit 0, calls.map (fun _ => AggOut.none)) := by
  induction calls with
  | nil => rfl
  | cons c rest ih =>
    obtain ⟨i, r⟩ := c
    have h1 : handleFutureReady (aggInit 0) i r = (aggInit 0, AggOut.none) := rfl
    simp only [aggRun, h1, ih, List.map_cons]

/-- C9: on a shared state that is already ready, `set_result`, `set_ready`
and `set_exception` all throw `"promise is already ready"` immediately in the
calling thread; the world — in particular the stored result, the stored
exception and the ready flag — is unchanged, and the error is not stored in
the state's exception slot. -/
theorem c9_double_fulfil_throws (fuel : Nat) (w : World) (i v e : Nat)
    (h : (wget w i).isReady = true) :
    setResult fuel w i v = (w, [], some .alreadyReady)
      ∧ setReady fuel w i = (w, [], some .alreadyReady)
      ∧ setException fuel w i e = (w, [], some .alreadyReady) := by
  refine ⟨?_, ?_, ?_⟩
  · unfold setResult
    simp [h]
  · unfold setReady
    simp [h]
  · unfold setException
    simp [h]

/-- C9 witness: a state fulfilled with 42 rejects a second `set_result`,
`set_ready` and `set_exception`, leaving the world unchanged. -/
theorem c9_witness :
    (wget [{ isReady := true, result := 42 }] 0).isReady = true
      ∧ (setResult 3 [{ isReady := true, result := 42 }] 0 7
          = ([{ isReady := true, result := 42 }], [], some .alreadyReady)
        ∧ setReady 3 [{ isReady := true, result := 42 }] 0
          = ([{ isReady := true, result := 42 }], [], some .alreadyReady)
        ∧ setException 3 [{ isReady := true, result := 42 }] 0 9
          = ([{ isReady := true, result := 42 }], [], some .alreadyReady)) :=
  ⟨rfl, c9_double_fulfil_throws 3 [{ isReady := true, result := 42 }] 0 7 9 rfl⟩

theorem runSuccList_users (fuel : Nat) (w : World) (ids : List Nat) (v : Nat) :
    runSuccList fuel w (ids.map .user) v
      = (w, ids.map (fun id => Ev.succRun id v), none) := by
  induction ids with
  | nil => simp [runSuccList]
  | cons a rest ih => simp [runSuccList, runSucc, ih]

theorem runErrList_users (fuel : Nat) (w : World)
    (ps : List (Nat × (Nat → Bool))) (e : Nat) :
    (runErrList fuel w (ps.map (fun p => .userErr p.1 p.2)) e).1 = w
      ∧ (runErrList fuel w (ps.map (fun p => .userErr p.1 p.2)) e).2.1
        = (firedList e ps).map (fun id => Ev.errRun id e) := by
  induction ps with
  | nil => simp [runErrList, firedList]
  | cons a rest ih =>
    obtain ⟨id, ret⟩ := a
    cases hr : ret e <;>
      simp [runErrList, runErr, firedList, hr, ih.1, ih.2]

theorem thenVoid_foldl (ids : List Nat) (s : PState) :
    ids.foldl (fun w id => (thenVoid w 0 id).1) [s]
      = [{ s with succ := s.succ ++ ids.map .user }] := by
  induction ids generalizing s with
  | nil => simp
  | cons a rest ih =>
    have h1 : (thenVoid [s] 0 a).1 = [{ s with succ := s.succ ++ [.user a] }] := rfl
    simp only [List.foldl_cons, h1]
    rw [ih]
    simp

theorem onExc_foldl (ps : List (Nat × (Nat → Bool))) (s : PState) :
    ps.foldl (fun w p => (onExceptionImpl w 0 (.userErr p.1 p.2)).1) [s]
      = [{ s with errh := s.errh ++ ps.map (fun p => .userErr p.1 p.2) }] := by
  induction ps generalizing s with
  | nil => simp
  | cons a rest ih =>
    have h1 : (onExceptionImpl [s] 0 (.userErr a.1 a.2)).1
        = [{ s with errh := s.errh ++ [.userErr a.1 a.2] }] := rfl
    simp only [List.foldl_cons, h1]
    rw [ih]
    simp

/-- C2: on a fresh shared state, register the continuations `ids` through
`then` and the exception handlers `ps` through `on_exception`, each list in
the given order.  Fulfilling the promise runs every success continuation in
registration order with the stored value (in particular any `c1` registered
before `c2` runs strictly before it); failing the promise runs the error
continuations in registration order, stopping at (and consuming the error
with) the first that returns true, so later error continuations do not fire. -/
theorem c2_continuations_in_registration_order (ids : List Nat)
    (ps : List (Nat × (Nat → Bool))) (v e : Nat) :
    (setResult 1 (ids.foldl (fun w id => (thenVoid w 0 id).1) [{}]) 0 v).2.1
        = ids.map (fun id => Ev.succRun id v)
      ∧ (setException 1
            (ps.foldl (fun w p => (onExceptionImpl w 0 (.userErr p.1 p.2)).1) [{}]) 0 e).2.1
        = (firedList e ps).map (fun id => Ev.errRun id e) := by
  constructor
  · rw [thenVoid_foldl]
    unfold setResult
    simp [wget, wmod, runSuccList_users]
  · rw [onExc_foldl]
    unfold setException
    simp [wget, wmod, (runErrList_users 0 _ ps e).2]

/-- C1 counterexample, both registration paths.  Success leg: a promise is
fulfilled with 5 (state 0 is ready with the stored value 5), then `then`
registers continuation 1; the claim says the registering call runs the
continuation synchronously with the stored value — i.e. the call should emit
the event `succRun 1 5` — but it emits no event at all: `then`
(future.hpp:246-259) only appends to `m_success_handlers` and `on_ready` has
already run.  Error leg: a promise is failed with 7 (state 0 is ready with
the stored error 7), then `on_exception` registers error handler 1; the
claim says the registering call runs it synchronously with the stored error
(`errRun 1 7`) — but `on_exception_impl` (future.hpp:453-459) likewise only
appends to `m_exceptions_handlers` and the call emits nothing. -/
theorem c1_counterexample :
    ((wget (setResult 9 [(default : PState)] 0 5).1 0).isReady = true
      ∧ (thenVoid (setResult 9 [(default : PState)] 0 5).1 0 1).2 = []
      ∧ (thenVoid (setResult 9 [(default : PState)] 0 5).1 0 1).2
          ≠ [Ev.succRun 1 5])
      ∧ ((wget (setException 9 [(default : PState)] 0 7).1 0).isReady = true
        ∧ (onExceptionImpl (setException 9 [(default : PState)] 0 7).1 0
            (.userErr 1 (fun _ => true))).2 = []
        ∧ (onExceptionImpl (setException 9 [(default : PState)] 0 7).1 0
            (.userErr 1 (fun _ => true))).2 ≠ [Ev.errRun 1 7]) := by
  refine ⟨⟨?_, ?_, ?_⟩, ?_, ?_, ?_⟩
  · simp [setResult, wget, wmod, runSuccList, default]
  · simp [thenVoid]
  · simp [thenVoid]
  · simp [setException, wget, wmod, runErrList, default]
  · simp [onExceptionImpl]
  · simp [onExceptionImpl]

/-- C1 (amended), stated for both registration paths on an already-ready
state.  Success leg, on a state fulfilled with `v`: a `then` registration
merely appends the continuation to `m_success_handlers` — the registering
call emits nothing, and the stored value and ready flag are untouched; a
plain re-fulfilment still throws; only `take` (which resets the ready flag,
the move-only idiom of future.hpp:230-244) followed by a re-fulfilment runs
the late continuation.  Error leg, on a state failed with `e`: an
`on_exception` registration merely appends the handler to
`m_exceptions_handlers` — the registering call emits nothing, and the stored
exception and ready flag are untouched; a further `set_exception` still
throws; only `take` followed by a re-failure runs the late error handler. -/
theorem c1_late_registration_is_appended_not_run (v v2 e e2 id : Nat)
    (ret : Nat → Bool) :
    ((thenVoid (setResult 9 [(default : PState)] 0 v).1 0 id).2 = []
      ∧ (wget (thenVoid (setResult 9 [(default : PState)] 0 v).1 0 id).1 0).succ
          = [.user id]
      ∧ (wget (thenVoid (setResult 9 [(default : PState)] 0 v).1 0 id).1 0).isReady
          = true
      ∧ (wget (thenVoid (setResult 9 [(default : PState)] 0 v).1 0 id).1 0).result
          = v
      ∧ (setResult 9 (thenVoid (setResult 9 [(default : PState)] 0 v).1 0 id).1 0 v2).2.2
          = some .alreadyReady
      ∧ (setResult 9
            (takeF (thenVoid (setResult 9 [(default : PState)] 0 v).1 0 id).1 0).1 0 v2).2.1
          = [Ev.succRun id v2])
      ∧ ((onExceptionImpl (setException 9 [(default : PState)] 0 e).1 0
            (.userErr id ret)).2 = []
        ∧ (wget (onExceptionImpl (setException 9 [(default : PState)] 0 e).1 0
            (.userErr id ret)).1 0).errh = [.userErr id ret]
        ∧ (wget (onExceptionImpl (setException 9 [(default : PState)] 0 e).1 0
            (.userErr id ret)).1 0).isReady = true
        ∧ (wget (onExceptionImpl (setException 9 [(default : PState)] 0 e).1 0
            (.userErr id ret)).1 0).exc = some e
        ∧ (setException 9 (onExceptionImpl (setException 9 [(default : PState)] 0 e).1 0
            (.userErr id ret)).1 0 e2).2.2 = some .alreadyReady
        ∧ (setException 9
            (takeF (onExceptionImpl (setException 9 [(default : PState)] 0 e).1 0
              (.userErr id ret)).1 0).1 0 e2).2.1 = [Ev.errRun id e2]) := by
  refine ⟨⟨?_, ?_, ?_, ?_, ?_, ?_⟩, ?_, ?_, ?_, ?_, ?_, ?_⟩
  · simp [setResult, thenVoid, takeF, runSuccList, runSucc, wget, wmod, default]
  · simp [setResult, thenVoid, takeF, runSuccList, runSucc, wget, wmod, default]
  · simp [setResult, thenVoid, takeF, runSuccList, runSucc, wget, wmod, default]
  · simp [setResult, thenVoid, takeF, runSuccList, runSucc, wget, wmod, default]
  · simp [setResult, thenVoid, takeF, runSuccList, runSucc, wget, wmod, default]
  · simp [setResult, thenVoid, takeF, runSuccList, runSucc, wget, wmod, default]
  · simp [onExceptionImpl]
  · simp [setException, onExceptionImpl, takeF, runErrList, runErr, wget, wmod, default]
  · simp [setException, onExceptionImpl, takeF, runErrList, runErr, wget, wmod, default]
  · simp [setException, onExceptionImpl, takeF, runErrList, runErr, wget, wmod, default]
  · simp [setException, onExceptionImpl, takeF, runErrList, runErr, wget, wmod, default]
  · cases hr : ret e2 <;>
      simp [setException, onExceptionImpl, takeF, runErrList, runErr, wget, wmod,
        default, hr]

/-- C3 counterexample: world of two fresh states, `f` at index 0 and an inner
future at index 1.  The inner future is fulfilled with 7 first; then
`f.then(g)` is registered with `g` returning that inner future (the new outer
future is state 2); then `f` is fulfilled with 3, which runs `g` and wires
the inner future to the outer promise.  The inner future is fulfilled, no
exception escaped anywhere — yet the outer future never becomes ready,
because the wiring was registered on an already-ready state and never fires.
This refutes "f.then(g) is fulfilled iff the inner future returned by g is
fulfilled". -/
theorem c3_counterexample :
    (wget (setResult 9
        (thenFutureReg (setResult 9 [default, default] 1 7).1 0
          (fun _ => GRes.ret 1)).1 0 3).1 1).isReady = true
      ∧ (wget (setResult 9
          (thenFutureReg (setResult 9 [default, default] 1 7).1 0
            (fun _ => GRes.ret 1)).1 0 3).1 1).result = 7
      ∧ (setResult 9
          (thenFutureReg (setResult 9 [default, default] 1 7).1 0
            (fun _ => GRes.ret 1)).1 0 3).2.2 = none
      ∧ (wget (setResult 9
          (thenFutureReg (setResult 9 [default, default] 1 7).1 0
            (fun _ => GRes.ret 1)).1 0 3).1 2).isReady = false := by
  refine ⟨?_, ?_, ?_, ?_⟩ <;>
    simp [setResult, thenFutureReg, runSuccList, runSucc, wget, wmod, default]

/-- C3 (amended): for `f.then(g)` with `g` returning a future, provided the
future `g` returns is not yet ready when `g` returns (so the wiring is
registered before the inner future settles), the returned outer future
behaves as claimed.  In a world with `f` at index 0, the inner future at
index 1, and the outer future created by `then` at index 2:

* fulfil `f` with `v` then the inner future with `u`: the outer future is
  fulfilled with `u` and carries no error;
* fail `f` with `e`: the outer future fails with `e`;
* fulfil `f` with `v` then fail the inner future with `e`: the outer future
  fails with `e`;
* if `g` throws `e` when invoked, the outer future fails with `e`. -/
theorem c3_then_future_flattening (v u e : Nat) :
    ((wget (setResult 9 (setResult 9
          (thenFutureReg [default, default] 0 (fun _ => GRes.ret 1)).1 0 v).1 1 u).1 2)
        = { result := u, isReady := true, exc := none,
            succ := [], errh := [] })
      ∧ ((wget (setException 9
            (thenFutureReg [default, default] 0 (fun _ => GRes.ret 1)).1 0 e).1 2).isReady
              = true
          ∧ (wget (setException 9
              (thenFutureReg [default, default] 0 (fun _ => GRes.ret 1)).1 0 e).1 2).exc
              = some e)
      ∧ ((wget (setException 9 (setResult 9
            (thenFutureReg [default, default] 0 (fun _ => GRes.ret 1)).1 0 v).1 1 e).1 2).isReady
              = true
          ∧ (wget (setException 9 (setResult 9
              (thenFutureReg [default, default] 0 (fun _ => GRes.ret 1)).1 0 v).1 1 e).1 2).exc
              = some e)
      ∧ ((wget (setResult 9
            (thenFutureReg [default, default] 0 (fun _ => GRes.thr e)).1 0 v).1 2).isReady
              = true
          ∧ (wget (setResult 9
              (thenFutureReg [default, default] 0 (fun _ => GRes.thr e)).1 0 v).1 2).exc
              = some e) := by
  refine ⟨?_, ⟨?_, ?_⟩, ⟨?_, ?_⟩, ⟨?_, ?_⟩⟩ <;>
    simp [setResult, setException, thenFutureReg, runSuccList, runSucc,
      runErrList, runErr, wget, wmod, default]

theorem findIdxFrom_modifyAt (r : RVar) (index : Nat) :
    ∀ l : List AggElem,
      Option.map (modifyAt (fun e => { e with res := r }) l)
          (findIdxFrom (fun e => e.idx == index) l)
        = updateFirst r index l := by
  intro l
  induction l with
  | nil => rfl
  | cons a as ih =>
    by_cases ha : a.idx = index
    · have hb : (a.idx == index) = true := by simpa using ha
      simp [findIdxFrom, updateFirst, hb, modifyAt]
    · have hb : (a.idx == index) = false := by simpa using ha
      simp only [findIdxFrom, updateFirst, hb, Bool.false_eq_true, if_false]
      rw [← ih]
      cases h : findIdxFrom (fun e => e.idx == index) as <;> simp [modifyAt]

theorem handleFutureReady_via_updateFirst (s : AggState) (index : Nat) (r : RVar) :
    handleFutureReady s index r
      = match updateFirst r index s.futures with
        | Option.none => (s, .none)
        | some fs =>
          if s.readyCount + 1 = fs.length then
            match fs.find? (fun e => e.res.isErr) with
            | Option.none =>
              (⟨fs, s.readyCount + 1⟩, .setResult (fs.map (fun e => e.res.getVal)))
            | some e => (⟨fs, s.readyCount + 1⟩, .setExc e.res.getErr)
          else (⟨fs, s.readyCount + 1⟩, .none) := by
  unfold handleFutureReady
  rw [← findIdxFrom_modifyAt r index s.futures]
  cases h : findIdxFrom (fun e => e.idx == index) s.futures <;> rfl

theorem updateFirst_map (res : Nat → RVar) (done : List Nat) (i : Nat) :
    ∀ keys : List Nat, keys.Nodup → i ∈ keys →
      updateFirst (res i) i
          (keys.map (fun j => ⟨j, if j ∈ done then res j else .pending⟩))
        = some (keys.map (fun j => ⟨j, if j ∈ i :: done then res j else .pending⟩)) := by
  intro keys
  induction keys with
  | nil => intro _ hi; cases hi
  | cons a as ih =>
    intro hnod hi
    simp only [List.map_cons, updateFirst]
    by_cases ha : a = i
    · subst ha
      have hnotin : a ∉ as := (List.nodup_cons.mp hnod).1
      simp only [beq_self_eq_true, if_true]
      have htail : as.map (fun j => (⟨j, if j ∈ done then res j else .pending⟩ : AggElem))
          = as.map (fun j => ⟨j, if j ∈ a :: done then res j else .pending⟩) := by
        apply List.map_congr_left
        intro j hj
        have : j ≠ a := fun h => hnotin (h ▸ hj)
        simp [List.mem_cons, this]
      simp [htail]
    · have hbeq : ((⟨a, if a ∈ done then res a else .pending⟩ : AggElem).idx == i) = false := by
        simpa using ha
      have hias : i ∈ as := by
        rcases List.mem_cons.mp hi with h | h
        · exact absurd h.symm ha
        · exact h
      rw [hbeq]
      simp only [Bool.false_eq_true, if_false]
      rw [ih (List.nodup_cons.mp hnod).2 hias]
      simp only [Option.map_some', Option.some.injEq]
      have : (a ∈ i :: done) = (a ∈ done) := by
        simp [List.mem_cons, ha]
      simp [this]

theorem aggExpectedKeys_ne_none (keys : List Nat) (res : Nat → RVar) :
    aggExpectedKeys keys res ≠ AggOut.none := by
  unfold aggExpectedKeys
  cases h : keys.find? (fun j => (res j).isErr) <;> simp

theorem handleFutureReady_step (res : Nat → RVar) (keys done : List Nat) (i : Nat)
    (hkeys : keys.Nodup) (hi : i ∈ keys) (hindone : i ∉ done)
    (hdnod : done.Nodup) (hsub : ∀ x ∈ done, x ∈ keys) :
    handleFutureReady (stateOfKeys res keys done) i (res i)
      = (stateOfKeys res keys (i :: done),
         if done.length + 1 = keys.length then aggExpectedKeys keys res
         else AggOut.none) := by
  rw [handleFutureReady_via_updateFirst]
  have hupd := updateFirst_map res done i keys hkeys hi
  simp only [stateOfKeys] at hupd ⊢
  rw [hupd]
  simp only [List.length_map]
  by_cases hc : done.length + 1 = keys.length
  · have hperm : (i :: done).Perm keys := by
      apply List.Subperm.perm_of_length_le
      · apply List.subperm_of_subset
        · exact List.nodup_cons.mpr ⟨hindone, hdnod⟩
        · intro x hx
          rcases List.mem_cons.mp hx with h | h
          · exact h ▸ hi
          · exact hsub x h
      · simp [← hc]
    have hcov : ∀ j ∈ keys, j ∈ i :: done := fun j hj => hperm.mem_iff.mpr hj
    have hall : keys.map (fun j => (⟨j, if j ∈ i :: done then res j else .pending⟩ : AggElem))
        = keys.map (fun j => ⟨j, res j⟩) := by
      apply List.map_congr_left
      intro j hj
      simp [hcov j hj]
    simp only [hc, if_true, List.length_cons]
    rw [hall, List.find?_map]
    unfold aggExpectedKeys
    have hpf : ((fun e => e.res.isErr) ∘ fun j => (⟨j, res j⟩ : AggElem))
        = fun j => (res j).isErr := rfl
    rw [hpf]
    cases hf : keys.find? (fun j => (res j).isErr) with
    | none => simp [List.map_map, Function.comp]
    | some j => simp
  · simp [hc]

theorem aggRun_filter (res : Nat → RVar) (keys : List Nat) (hkeys : keys.Nodup) :
    ∀ (order done : List Nat), (∀ x ∈ order, x ∈ keys) → (∀ x ∈ done, x ∈ keys) →
      (done ++ order).Nodup → done.length + order.length = keys.length →
      ((aggRun (stateOfKeys res keys done) (order.map (fun i => (i, res i)))).2).filter
          (fun o => o != AggOut.none)
        = if order.isEmpty then [] else [aggExpectedKeys keys res] := by
  intro order
  induction order with
  | nil =>
    intro done _ _ _ _
    simp [aggRun]
  | cons i rest ih =>
    intro done hord hdone hnod hlen
    have hnod2 : ((i :: done) ++ rest).Nodup := List.perm_middle.nodup hnod
    have hcons := List.nodup_cons.mp (List.nodup_append.mp hnod2).1
    have hi : i ∈ keys := hord i (by simp)
    have hindone : i ∉ done := hcons.1
    have hdnod : done.Nodup := hcons.2
    have hstep := handleFutureReady_step res keys done i hkeys hi hindone hdnod hdone
    simp only [List.map_cons, aggRun, hstep]
    cases rest with
    | nil =>
      have hc : done.length + 1 = keys.length := by
        simpa using hlen
      have hbne : (aggExpectedKeys keys res != AggOut.none) = true :=
        bne_iff_ne.mpr (aggExpectedKeys_ne_none keys res)
      simp [aggRun, hc, List.filter, hbne]
    | cons b bs =>
      have hc : ¬(done.length + 1 = keys.length) := by
        simp only [List.length_cons] at hlen
        omega
      have ihres := ih (i :: done)
        (fun x hx => hord x (List.mem_cons_of_mem i hx))
        (fun x hx => (List.mem_cons.mp hx).elim (fun h => h ▸ hi) (hdone x))
        hnod2
        (by simp only [List.length_cons] at hlen ⊢; omega)
      simp only [hc, if_false] at *
      simpa [List.filter] using ihres

theorem aggInit_eq_stateOfKeys (n : Nat) (res : Nat → RVar) :
    aggInit n = stateOfKeys res (List.range n) [] := by
  simp [aggInit, stateOfKeys]

/-- C4: deliver the sub-future settlements of an `n`-element aggregate in an
arbitrary completion order (any permutation of the registration indices
`0..n-1`), sub-future `i` settling with `res i`.  Exactly one delivery
touches the aggregate promise, and its action is: fulfil with the values in
registration-index order when no sub-future recorded an error, else fail with
the error of the earliest-registered erroring sub-future — regardless of the
completion order. -/
theorem c4_aggregate_outcome (n : Nat) (res : Nat → RVar) (order : List Nat)
    (hperm : order.Perm (List.range n)) (hn : 0 < n) :
    ((aggRun (aggInit n) (order.map (fun i => (i, res i)))).2).filter
        (fun o => o != AggOut.none)
      = [aggExpected n res] := by
  rw [aggInit_eq_stateOfKeys n res]
  have hlen : order.length = n := by simpa using hperm.length_eq
  have horder : ∀ x ∈ order, x ∈ List.range n := fun x hx => hperm.mem_iff.mp hx
  have hres := aggRun_filter res (List.range n) (List.nodup_range n) order []
    horder (by simp) (by simpa using hperm.symm.nodup (List.nodup_range n))
    (by simpa using hlen)
  have hne : order.isEmpty = false := by
    cases order with
    | nil => simp at hlen; omega
    | cons a as => rfl
  rw [hne] at hres
  simpa [aggExpected] using hres

/-- C4 witness: three sub-futures; index 1 fails with error 7, indices 0 and
2 succeed; completion order 2, 0, 1.  The single aggregate action is
`set_exception 7` — the earliest-registered error. -/
theorem c4_witness :
    ([2, 0, 1] : List Nat).Perm (List.range 3) ∧ 0 < 3
      ∧ ((aggRun (aggInit 3)
            (([2, 0, 1] : List Nat).map
              (fun i => (i, if i == 1 then RVar.err 7 else RVar.val i)))).2).filter
          (fun o => o != AggOut.none)
        = [aggExpected 3 (fun i => if i == 1 then RVar.err 7 else RVar.val i)] :=
  ⟨by decide, by decide,
    c4_aggregate_outcome 3 (fun i => if i == 1 then RVar.err 7 else RVar.val i)
      [2, 0, 1] (by decide) (by decide)⟩

theorem land_mask (i k : Nat) : i &&& (2 ^ k - 1) = i % 2 ^ k := by
  apply Nat.eq_of_testBit_eq
  intro j
  simp [Nat.testBit_land, Nat.testBit_mod_two_pow, Nat.testBit_two_pow_sub_one,
    Bool.and_comm]

theorem mod_add_small (w j cap : Nat) (h : w % cap + j < cap) :
    (w + j) % cap = w % cap + j := by
  have hj : j % cap = j := Nat.mod_eq_of_lt (by omega)
  rw [Nat.add_mod, hj, Nat.mod_eq_of_lt h]

theorem mod_add_wrap (w j cap : Nat) (hj : j < cap)
    (h1 : cap ≤ w % cap + j) (h2 : w % cap + j < 2 * cap) :
    (w + j) % cap = w % cap + j - cap := by
  have hjm : j % cap = j := Nat.mod_eq_of_lt hj
  rw [Nat.add_mod, hjm, Nat.mod_eq_sub_mod h1, Nat.mod_eq_of_lt (by omega)]

theorem mod_inj_near (n a b : Nat) (hle : a ≤ b) (hlt : b < a + n)
    (h : a % n = b % n) : a = b := by
  have h0 : (b - a) % n = 0 := Nat.sub_mod_eq_zero_of_mod_eq h.symm
  have hd : n ∣ (b - a) := Nat.dvd_of_mod_eq_zero h0
  have : b - a = 0 := Nat.eq_zero_of_dvd_of_lt hd (by omega)
  omega

theorem copySeg_inside (d : Nat → Nat) (dst : Nat) (src : List Nat) (p : Nat)
    (h1 : dst ≤ p) (h2 : p < dst + src.length) :
    copySeg d dst src p = src.getD (p - dst) 0 := by
  simp [copySeg, h1, h2]

theorem copySeg_outside (d : Nat → Nat) (dst : Nat) (src : List Nat) (p : Nat)
    (h : p < dst ∨ dst + src.length ≤ p) :
    copySeg d dst src p = d p := by
  rcases h with h | h <;> simp [copySeg] <;> omega

theorem writeChan_spec (c : Chan) (vs : List Nat) (hlen : vs.length ≤ c.cap) :
    (writeChan c vs).k = c.k
      ∧ (writeChan c vs).rIdx = c.rIdx
      ∧ (writeChan c vs).wIdx = c.wIdx + vs.length
      ∧ (∀ j, j < vs.length →
          (writeChan c vs).data ((c.wIdx + j) % c.cap) = vs.getD j 0)
      ∧ (∀ p, (∀ j, j < vs.length → (c.wIdx + j) % c.cap ≠ p) →
          (writeChan c vs).data p = c.data p) := by
  have hcap : 0 < c.cap := Nat.pos_pow_of_pos c.k (by omega)
  have hidx : c.wIdx &&& (c.cap - 1) = c.wIdx % c.cap := land_mask c.wIdx c.k
  have him : c.wIdx % c.cap < c.cap := Nat.mod_lt _ hcap
  set im := c.wIdx % c.cap with himdef
  set s := min vs.length (c.cap - im) with hs
  have hsle : s ≤ vs.length := Nat.min_le_left _ _
  have hscap : im + s ≤ c.cap := by omega
  by_cases hwrap : s < vs.length
  · -- straddling write: two contiguous segments
    have hseq : s = c.cap - im := by rw [hs]; omega
    have hw1 : (c.wIdx + s) % c.cap = 0 := by
      have := mod_add_wrap c.wIdx s c.cap (by omega) (by omega) (by omega)
      omega
    have hmask2 : (c.wIdx + s) &&& (c.cap - 1) = (c.wIdx + s) % c.cap :=
      land_mask (c.wIdx + s) c.k
    have hunf : writeChan c vs =
        { c with
          data := copySeg (copySeg c.data im (vs.take s)) 0 (vs.drop s),
          wIdx := c.wIdx + s + (vs.length - s) } := by
      rw [writeChan]
      simp only [hidx, ← himdef, ← hs, hwrap, if_true, hmask2, hw1]
    have hdata : (writeChan c vs).data
        = copySeg (copySeg c.data im (vs.take s)) 0 (vs.drop s) := by rw [hunf]
    have hwidx : (writeChan c vs).wIdx = c.wIdx + s + (vs.length - s) := by rw [hunf]
    have hridx : (writeChan c vs).rIdx = c.rIdx := by rw [hunf]
    have hkk : (writeChan c vs).k = c.k := by rw [hunf]
    refine ⟨hkk, hridx, by rw [hwidx]; omega, ?_, ?_⟩
    · intro j hj
      rw [hdata]
      by_cases hjs : j < s
      · have hpos : (c.wIdx + j) % c.cap = im + j :=
          mod_add_small c.wIdx j c.cap (by omega)
        rw [hpos,
          copySeg_outside _ _ _ _ (by right; rw [List.length_drop]; omega),
          copySeg_inside _ _ _ _ (by omega) (by rw [List.length_take]; omega)]
        have harg : im + j - im = j := by omega
        rw [harg, List.getD_eq_getElem?_getD, List.getElem?_take, if_pos hjs,
          ← List.getD_eq_getElem?_getD]
      · have hpos : (c.wIdx + j) % c.cap = j - s := by
          have := mod_add_wrap c.wIdx j c.cap (by omega) (by omega) (by omega)
          omega
        rw [hpos, copySeg_inside _ _ _ _ (by omega) (by rw [List.length_drop]; omega)]
        rw [List.getD_eq_getElem?_getD, Nat.sub_zero, List.getElem?_drop,
          ← List.getD_eq_getElem?_getD]
        congr 1
        omega
    · intro p hp
      rw [hdata]
      have hout2 : p < 0 ∨ 0 + (vs.drop s).length ≤ p := by
        right
        rw [List.length_drop, Nat.zero_add]
        by_contra hcon
        push_neg at hcon
        exact hp (s + p) (by omega) (by
          have := mod_add_wrap c.wIdx (s + p) c.cap (by omega) (by omega) (by omega)
          omega)
      rw [copySeg_outside _ _ _ _ hout2]
      have hout1 : p < im ∨ im + (vs.take s).length ≤ p := by
        by_contra hcon
        push_neg at hcon
        obtain ⟨h1, h2⟩ := hcon
        rw [List.length_take] at h2
        exact hp (p - im) (by omega) (by
          have := mod_add_small c.wIdx (p - im) c.cap (by omega)
          omega)
      exact copySeg_outside _ _ _ _ hout1
  · -- no wrap: a single contiguous segment
    have hseq : s = vs.length := by omega
    have hunf : writeChan c vs =
        { c with data := copySeg c.data im (vs.take s), wIdx := c.wIdx + s } := by
      rw [writeChan]
      simp only [hidx, ← himdef, ← hs, hwrap, if_false]
    have hdata : (writeChan c vs).data = copySeg c.data im (vs.take s) := by rw [hunf]
    have hwidx : (writeChan c vs).wIdx = c.wIdx + s := by rw [hunf]
    have hridx : (writeChan c vs).rIdx = c.rIdx := by rw [hunf]
    have hkk : (writeChan c vs).k = c.k := by rw [hunf]
    refine ⟨hkk, hridx, by rw [hwidx]; omega, ?_, ?_⟩
    · intro j hj
      rw [hdata]
      have hpos : (c.wIdx + j) % c.cap = im + j :=
        mod_add_small c.wIdx j c.cap (by omega)
      rw [hpos, copySeg_inside _ _ _ _ (by omega) (by rw [List.length_take]; omega)]
      have harg : im + j - im = j := by omega
      rw [harg, List.getD_eq_getElem?_getD, List.getElem?_take, if_pos (by omega),
        ← List.getD_eq_getElem?_getD]
    · intro p hp
      rw [hdata]
      apply copySeg_outside
      by_contra hcon
      push_neg at hcon
      obtain ⟨h1, h2⟩ := hcon
      rw [List.length_take] at h2
      exact hp (p - im) (by omega) (by
        have := mod_add_small c.wIdx (p - im) c.cap (by omega)
        omega)

theorem readChan_spec (c : Chan) (n : Nat) (h2 : c.wIdx ≤ c.rIdx + c.cap) :
    (readChan c n).1.k = c.k
      ∧ (readChan c n).1.data = c.data
      ∧ (readChan c n).1.wIdx = c.wIdx
      ∧ (readChan c n).1.rIdx = c.rIdx + min (c.wIdx - c.rIdx) n
      ∧ (readChan c n).2
        = (List.range (min (c.wIdx - c.rIdx) n)).map
            (fun j => c.data ((c.rIdx + j) % c.cap)) := by
  have hcap : 0 < c.cap := Nat.pos_pow_of_pos c.k (by omega)
  have hidx : c.rIdx &&& (c.cap - 1) = c.rIdx % c.cap := land_mask c.rIdx c.k
  set im := c.rIdx % c.cap with himdef
  have him : im < c.cap := Nat.mod_lt _ hcap
  have hmm : min (min (c.wIdx - c.rIdx) c.cap) n = min (c.wIdx - c.rIdx) n := by
    omega
  set m := min (c.wIdx - c.rIdx) n with hmdef
  have hmle : m ≤ c.cap := by omega
  set s := min m (c.cap - im) with hs
  have hsle : s ≤ m := Nat.min_le_left _ _
  have hscap : im + s ≤ c.cap := by omega
  by_cases hwrap : s < m
  · have hseq : s = c.cap - im := by rw [hs]; omega
    have hr1 : (c.rIdx + s) % c.cap = 0 := by
      have := mod_add_wrap c.rIdx s c.cap (by omega) (by omega) (by omega)
      omega
    have hmask2 : (c.rIdx + s) &&& (c.cap - 1) = (c.rIdx + s) % c.cap :=
      land_mask (c.rIdx + s) c.k
    have hunf : readChan c n =
        ({ c with rIdx := c.rIdx + s + (m - s) },
          (List.range s).map (fun j => c.data (im + j))
            ++ (List.range (m - s)).map (fun j => c.data (0 + j))) := by
      rw [readChan]
      simp only [hidx, ← himdef, hmm, ← hmdef, ← hs, hwrap, if_true, hmask2, hr1]
    have hout : (readChan c n).2
        = (List.range s).map (fun j => c.data (im + j))
            ++ (List.range (m - s)).map (fun j => c.data (0 + j)) := by rw [hunf]
    have hrr : (readChan c n).1.rIdx = c.rIdx + s + (m - s) := by rw [hunf]
    refine ⟨by rw [hunf], by rw [hunf], by rw [hunf], by rw [hrr]; omega, ?_⟩
    rw [hout]
    have hmsplit : m = s + (m - s) := by omega
    conv_rhs => rw [hmsplit, List.range_add]
    rw [List.map_append, List.map_map]
    congr 1
    · apply List.map_congr_left
      intro j hj
      rw [List.mem_range] at hj
      have : (c.rIdx + j) % c.cap = im + j := mod_add_small c.rIdx j c.cap (by omega)
      rw [this]
    · apply List.map_congr_left
      intro j hj
      rw [List.mem_range] at hj
      have : (c.rIdx + (s + j)) % c.cap = j := by
        have := mod_add_wrap c.rIdx (s + j) c.cap (by omega) (by omega) (by omega)
        omega
      simp only [Function.comp]
      rw [this, Nat.zero_add]
  · have hseq : s = m := by omega
    have hunf : readChan c n =
        ({ c with rIdx := c.rIdx + s },
          (List.range s).map (fun j => c.data (im + j))) := by
      rw [readChan]
      simp only [hidx, ← himdef, hmm, ← hmdef, ← hs, hwrap, if_false]
    have hrr : (readChan c n).1.rIdx = c.rIdx + s := by rw [hunf]
    refine ⟨by rw [hunf], by rw [hunf], by rw [hunf], by rw [hrr, hseq], ?_⟩
    have hout : (readChan c n).2
        = (List.range s).map (fun j => c.data (im + j)) := by rw [hunf]
    rw [hout, hseq]
    apply List.map_congr_left
    intro j hj
    rw [List.mem_range] at hj
    have : (c.rIdx + j) % c.cap = im + j := mod_add_small c.rIdx j c.cap (by omega)
    rw [this]

theorem getD_drop (l : List Nat) (r j : Nat) :
    (l.drop r).getD j 0 = l.getD (r + j) 0 := by
  rw [List.getD_eq_getElem?_getD, List.getElem?_drop, ← List.getD_eq_getElem?_getD]

theorem range_map_getD (l : List Nat) :
    ∀ n, n ≤ l.length → (List.range n).map (fun j => l.getD j 0) = l.take n := by
  induction l with
  | nil =>
    intro n hn
    have : n = 0 := by simpa using hn
    subst this
    simp
  | cons a as ih =>
    intro n hn
    cases n with
    | zero => simp
    | succ p =>
      rw [List.range_succ_eq_map, List.map_cons, List.map_map, List.take_succ_cons]
      congr 1
      have := ih p (by simpa using hn)
      rw [← this]
      apply List.map_congr_left
      intro j hj
      rfl

theorem take_drop_concat (l : List Nat) (a b e : Nat) (h1 : a ≤ b) (h2 : b ≤ e) :
    (l.drop a).take (b - a) ++ (l.drop b).take (e - b) = (l.drop a).take (e - a) := by
  have hb : l.drop b = (l.drop a).drop (b - a) := by
    rw [List.drop_drop]
    congr 1
    omega
  rw [hb, ← List.take_add]
  congr 1
  omega

theorem runOps_spec (ops : List ChOp) :
    ∀ (c : Chan) (hist : List Nat), ChanInv c hist →
      validTrace c.cap c.wIdx c.rIdx ops = true →
      (runOps c ops).1.k = c.k
        ∧ c.rIdx ≤ (runOps c ops).1.rIdx
        ∧ ChanInv (runOps c ops).1 (hist ++ writtenOf ops)
        ∧ (runOps c ops).2
          = ((hist ++ writtenOf ops).drop c.rIdx).take
              ((runOps c ops).1.rIdx - c.rIdx) := by
  induction ops with
  | nil =>
    intro c hist hinv _
    refine ⟨rfl, le_refl _, by simpa [writtenOf] using hinv, ?_⟩
    simp [runOps, writtenOf]
  | cons op rest ih =>
    intro c hist hinv hvalid
    obtain ⟨hw, hrw, hwc, hdata⟩ := hinv
    cases op with
    | write vs =>
      simp only [validTrace, Bool.and_eq_true, decide_eq_true_eq] at hvalid
      obtain ⟨hbound, hvrest⟩ := hvalid
      have hlen : vs.length ≤ c.cap := by omega
      obtain ⟨hk1, hr1, hw1, hin, hfr⟩ := writeChan_spec c vs hlen
      have hcap1 : (writeChan c vs).cap = c.cap := by simp [Chan.cap, hk1]
      have hinv1 : ChanInv (writeChan c vs) (hist ++ vs) := by
        refine ⟨by rw [hw1, hw]; simp, by rw [hr1, hw1]; omega,
          by rw [hr1, hw1, hcap1]; omega, ?_⟩
        intro i hi1 hi2
        rw [hr1] at hi1
        rw [hw1] at hi2
        rw [hcap1]
        by_cases hiw : i < c.wIdx
        · have hne : ∀ j, j < vs.length → (c.wIdx + j) % c.cap ≠ i % c.cap := by
            intro j hj heq
            have heqi : i = c.wIdx + j :=
              mod_inj_near c.cap i (c.wIdx + j) (by omega) (by omega) heq.symm
            omega
          rw [hfr (i % c.cap) hne, hdata i hi1 hiw,
            List.getD_eq_getElem?_getD, List.getD_eq_getElem?_getD,
            List.getElem?_append, if_pos (by omega)]
        · have hj : i - c.wIdx < vs.length := by omega
          have hval := hin (i - c.wIdx) hj
          have harg : c.wIdx + (i - c.wIdx) = i := by omega
          rw [harg] at hval
          rw [hval, List.getD_eq_getElem?_getD, List.getD_eq_getElem?_getD,
            List.getElem?_append_right (by omega)]
          congr 2
          omega
      have hvrest2 : validTrace (writeChan c vs).cap (writeChan c vs).wIdx
          (writeChan c vs).rIdx rest = true := by
        rw [hcap1, hw1, hr1]
        exact hvrest
      obtain ⟨ihk, ihr, ihinv, ihout⟩ := ih (writeChan c vs) (hist ++ vs) hinv1 hvrest2
      have hassoc : (hist ++ vs) ++ writtenOf rest = hist ++ writtenOf (.write vs :: rest) := by
        simp [writtenOf]
      refine ⟨?_, ?_, ?_, ?_⟩
      · show (runOps (writeChan c vs) rest).1.k = c.k
        rw [ihk, hk1]
      · show c.rIdx ≤ (runOps (writeChan c vs) rest).1.rIdx
        rw [← hr1]
        exact ihr
      · show ChanInv (runOps (writeChan c vs) rest).1 (hist ++ writtenOf (.write vs :: rest))
        rw [← hassoc]
        exact ihinv
      · show (runOps (writeChan c vs) rest).2
            = List.take ((runOps (writeChan c vs) rest).1.rIdx - c.rIdx)
                (List.drop c.rIdx (hist ++ writtenOf (ChOp.write vs :: rest)))
        rw [ihout, hr1, hassoc]
    | read n =>
      simp only [validTrace] at hvalid
      obtain ⟨hk1, hd1, hw1, hr1, hout1⟩ := readChan_spec c n hwc
      have hcap1 : (readChan c n).1.cap = c.cap := by simp [Chan.cap, hk1]
      set m := min (c.wIdx - c.rIdx) n with hmdef
      have hout2 : (readChan c n).2 = (hist.drop c.rIdx).take m := by
        rw [hout1]
        have hcong : ∀ j ∈ List.range m,
            c.data ((c.rIdx + j) % c.cap) = (hist.drop c.rIdx).getD j 0 := by
          intro j hj
          rw [List.mem_range] at hj
          rw [hdata (c.rIdx + j) (by omega) (by omega), getD_drop]
        rw [List.map_congr_left hcong]
        exact range_map_getD (hist.drop c.rIdx) m (by rw [List.length_drop]; omega)
      have hinv1 : ChanInv (readChan c n).1 hist := by
        refine ⟨by rw [hw1, hw], by rw [hw1, hr1]; omega,
          by rw [hw1, hr1, hcap1]; omega, ?_⟩
        intro i hi1 hi2
        rw [hr1] at hi1
        rw [hw1] at hi2
        rw [hd1, hcap1]
        exact hdata i (by omega) hi2
      have hvrest2 : validTrace (readChan c n).1.cap (readChan c n).1.wIdx
          (readChan c n).1.rIdx rest = true := by
        rw [hcap1, hw1, hr1]
        exact hvalid
      obtain ⟨ihk, ihr, ihinv, ihout⟩ := ih (readChan c n).1 hist hinv1 hvrest2
      have hwr : writtenOf (.read n :: rest) = writtenOf rest := by simp [writtenOf]
      have hrm : (readChan c n).1.rIdx = c.rIdx + m := hr1
      refine ⟨?_, ?_, ?_, ?_⟩
      · show (runOps (readChan c n).1 rest).1.k = c.k
        rw [ihk, hk1]
      · show c.rIdx ≤ (runOps (readChan c n).1 rest).1.rIdx
        calc c.rIdx ≤ c.rIdx + m := by omega
        _ = (readChan c n).1.rIdx := hrm.symm
        _ ≤ _ := ihr
      · show ChanInv (runOps (readChan c n).1 rest).1 (hist ++ writtenOf (.read n :: rest))
        rw [hwr]
        exact ihinv
      · show (readChan c n).2 ++ (runOps (readChan c n).1 rest).2 = _
        rw [hwr, ihout, hout2, hrm]
        have hfull : (hist ++ writtenOf rest).drop c.rIdx
            = hist.drop c.rIdx ++ writtenOf rest := by
          rw [List.drop_append_eq_append_drop, show c.rIdx - hist.length = 0 by omega,
            List.drop_zero]
        have hfirst : (hist.drop c.rIdx).take m
            = ((hist ++ writtenOf rest).drop c.rIdx).take m := by
          rw [hfull, List.take_append_of_le_length (by rw [List.length_drop]; omega)]
        rw [hfirst]
        have hrf : c.rIdx + m ≤ (runOps (readChan c n).1 rest).1.rIdx := by
          rw [← hrm]
          exact ihr
        have := take_drop_concat (hist ++ writtenOf rest) c.rIdx (c.rIdx + m)
          ((runOps (readChan c n).1 rest).1.rIdx) (by omega) hrf
        rw [show c.rIdx + m - c.rIdx = m by omega] at this
        rw [this]
        rfl

/-- C5: starting from a fresh channel over a ring of capacity `2 ^ k`, run
any alternation of bulk source writes and bulk sink reads in which no write
puts `write_index` more than `CAPACITY` ahead of `read_index`.  Then the
concatenation of the elements returned by the reads is exactly the prefix of
length `read_index` of the concatenation of all written values — the data
comes back in write order — and `write_index` counts all writes, with
`read_index` never past it; in particular once the reads have consumed
everything (`read_index = write_index`) the reads returned precisely the
written sequence.  Writes and reads that straddle the wrap point are executed
as two contiguous segments and every access resolves physical slots as
`index AND (CAPACITY - 1)`, per `writeChan`/`readChan`. -/
theorem c5_ring_fifo (k : Nat) (d0 : Nat → Nat) (ops : List ChOp)
    (hvalid : validTrace (2 ^ k) 0 0 ops = true) :
    (runOps ⟨k, d0, 0, 0⟩ ops).2
        = (writtenOf ops).take (runOps ⟨k, d0, 0, 0⟩ ops).1.rIdx
      ∧ (runOps ⟨k, d0, 0, 0⟩ ops).1.wIdx = (writtenOf ops).length
      ∧ (runOps ⟨k, d0, 0, 0⟩ ops).1.rIdx ≤ (runOps ⟨k, d0, 0, 0⟩ ops).1.wIdx
      ∧ ((runOps ⟨k, d0, 0, 0⟩ ops).1.rIdx = (runOps ⟨k, d0, 0, 0⟩ ops).1.wIdx →
          (runOps ⟨k, d0, 0, 0⟩ ops).2 = writtenOf ops) := by
  have hinv : ChanInv ⟨k, d0, 0, 0⟩ [] := by
    refine ⟨rfl, le_refl 0, by simp, ?_⟩
    intro i h1 h2
    simp at h2
  obtain ⟨hk, hr, hinv2, hout⟩ := runOps_spec ops ⟨k, d0, 0, 0⟩ [] hinv hvalid
  obtain ⟨hw2, hr2, _, _⟩ := hinv2
  simp only [List.nil_append] at hout hw2
  have houts : (runOps ⟨k, d0, 0, 0⟩ ops).2
      = (writtenOf ops).take (runOps ⟨k, d0, 0, 0⟩ ops).1.rIdx := by
    rw [hout]
    simp
  refine ⟨houts, hw2, hr2, ?_⟩
  intro heq
  rw [houts, heq, hw2, List.take_length]

/-- C5 witness: a capacity-2 ring; write 1,2; read both; write 3; read it.
The trace is valid (the writer never runs more than 2 ahead) and the reads
return 1,2,3 — the written sequence. -/
theorem c5_witness :
    validTrace (2 ^ 1) 0 0
        [ChOp.write [1, 2], ChOp.read 2, ChOp.write [3], ChOp.read 1] = true
      ∧ ((runOps ⟨1, fun _ => 0, 0, 0⟩
            [ChOp.write [1, 2], ChOp.read 2, ChOp.write [3], ChOp.read 1]).2
          = (writtenOf [ChOp.write [1, 2], ChOp.read 2, ChOp.write [3], ChOp.read 1]).take
              (runOps ⟨1, fun _ => 0, 0, 0⟩
                [ChOp.write [1, 2], ChOp.read 2, ChOp.write [3], ChOp.read 1]).1.rIdx
        ∧ (runOps ⟨1, fun _ => 0, 0, 0⟩
            [ChOp.write [1, 2], ChOp.read 2, ChOp.write [3], ChOp.read 1]).1.wIdx
          = (writtenOf [ChOp.write [1, 2], ChOp.read 2, ChOp.write [3], ChOp.read 1]).length
        ∧ (runOps ⟨1, fun _ => 0, 0, 0⟩
            [ChOp.write [1, 2], ChOp.read 2, ChOp.write [3], ChOp.read 1]).1.rIdx
          ≤ (runOps ⟨1, fun _ => 0, 0, 0⟩
              [ChOp.write [1, 2], ChOp.read 2, ChOp.write [3], ChOp.read 1]).1.wIdx
        ∧ ((runOps ⟨1, fun _ => 0, 0, 0⟩
              [ChOp.write [1, 2], ChOp.read 2, ChOp.write [3], ChOp.read 1]).1.rIdx
            = (runOps ⟨1, fun _ => 0, 0, 0⟩
                [ChOp.write [1, 2], ChOp.read 2, ChOp.write [3], ChOp.read 1]).1.wIdx →
            (runOps ⟨1, fun _ => 0, 0, 0⟩
                [ChOp.write [1, 2], ChOp.read 2, ChOp.write [3], ChOp.read 1]).2
              = writtenOf [ChOp.write [1, 2], ChOp.read 2, ChOp.write [3], ChOp.read 1])) :=
  ⟨by decide,
    c5_ring_fifo 1 (fun _ => 0)
      [ChOp.write [1, 2], ChOp.read 2, ChOp.write [3], ChOp.read 1] (by decide)⟩

end Cplease
